import Mathlib

/-!
Verification of the retrieval-ranking-citation pipeline of the tenex backend.

The definitions below are shallow embeddings of the Python source:
`backend/app/services/chunker.py`, `backend/app/services/vector_store.py`,
`backend/app/services/reranker.py` and `backend/app/routers/chat.py`.
Strings are modelled as `List Char`; Python slicing, `str.rfind`,
`str.strip` and regex scanning for bracketed integers are embedded
explicitly.  The external collaborators (Qdrant vector index, Cohere
reranker, OpenAI generation) are modelled as explicit parameters; parts of
their behaviour that the repository relies on but does not implement are
modelled from the spec and marked as such in their doc comments.
-/

/-- Strings are modelled as lists of characters. -/
abbrev Str := List Char

/-- The whitespace characters stripped by Python `str.strip()` (ASCII range). -/
def pySpace (c : Char) : Bool :=
  c = Char.ofNat 32 || c = Char.ofNat 9 || c = Char.ofNat 10 ||
  c = Char.ofNat 13 || c = Char.ofNat 11 || c = Char.ofNat 12

/-- Embedding of Python `str.strip()`: remove leading and trailing whitespace. -/
def pyStrip (s : Str) : Str :=
  ((s.dropWhile pySpace).reverse.dropWhile pySpace).reverse

/-- Normalisation of one Python slice index: negative indices count from the
end, and indices are clamped into `[0, len]`. -/
def normIdx (i : Int) (len : Nat) : Nat :=
  if i < 0 then ((len : Int) + i).toNat else min i.toNat len

/-- Embedding of the Python slice `s[a:b]` for `Int` endpoints. -/
def pySlice (s : Str) (a b : Int) : Str :=
  let a' := normIdx a s.length
  let b' := normIdx b s.length
  (s.drop a').take (b' - a')

/-- Embedding of Python `s.rfind(sub)`: the greatest index at which `sub`
occurs in `s`, or `-1` when it does not occur. -/
def rfindSub (s sub : Str) : Int :=
  match ((List.range (s.length + 1)).filter (fun i => sub.isPrefixOf (s.drop i))).getLast? with
  | some i => (i : Int)
  | none => -1

/-- The boundary-search block of `chunk_text` (chunker.py lines 39-60): given
a tentative end `end0` strictly before the end of the text, pull it back to
the last sentence boundary in the final 20% of the window, else to the last
word boundary there, else keep it.  `int(chunk_size * 0.2)` is embedded as
`chunk_size / 5` (Nat division). -/
def adjustEnd (t : Str) (chunk_size : Nat) (end0 : Int) : Int :=
  let ss : Int := end0 - (chunk_size / 5 : Nat)
  let region := pySlice t ss end0
  let lastPeriod : Int :=
    max (max (max (rfindSub region ". ".data) (rfindSub region "! ".data))
             (max (rfindSub region "? ".data) (rfindSub region ".\n".data)))
        (max (rfindSub region "!\n".data) (rfindSub region "?\n".data))
  if lastPeriod ≠ -1 then ss + lastPeriod + 1
  else
    let lastSpace := rfindSub region " ".data
    if lastSpace ≠ -1 then ss + lastSpace else end0

/-- The `while start < len(text)` loop of `chunk_text` (chunker.py lines
34-72), with explicit fuel; `none` means the fuel ran out before the loop
finished.  `acc` holds the chunks emitted so far. -/
def chunkLoop (t : Str) (chunk_size chunk_overlap : Nat) :
    Nat → Int → List Str → Option (List Str)
  | 0, _, _ => none
  | fuel + 1, start, acc =>
    if (t.length : Int) ≤ start then some acc
    else
      let end0 : Int := start + (chunk_size : Int)
      let e : Int := if end0 < (t.length : Int) then adjustEnd t chunk_size end0 else end0
      let chunk := pyStrip (pySlice t start e)
      let acc' := if chunk = [] then acc else acc ++ [chunk]
      let start' : Int := e - (chunk_overlap : Int)
      if (t.length : Int) - (chunk_overlap : Int) ≤ start' then some acc'
      else chunkLoop t chunk_size chunk_overlap fuel start' acc'

/-- Embedding of `chunk_text` (chunker.py lines 6-74).  The fuel bounds the
number of loop iterations; `none` means the loop did not finish within the
given fuel. -/
def chunk_text (text : Str) (chunk_size chunk_overlap : Nat) (fuel : Nat) :
    Option (List Str) :=
  if pyStrip text = [] then some []
  else
    let t := pyStrip text
    if t.length ≤ chunk_size then some [t]
    else chunkLoop t chunk_size chunk_overlap fuel 0 []

/-- The input on which the chunker loops forever: 8 letters, 2 spaces, 4
letters (length 14). -/
def badText : Str := "aaaaaaaa  aaaa".data

/-- A chunk as stored and retrieved (the `'text'`/`'metadata'` dict of
chunker.py and vector_store.py, flattened). -/
structure Chunk where
  text : Str
  file_id : Str
  file_name : Str
  chunk_index : Nat
  total_chunks : Nat
  web_view_link : Option Str := none
  score : Option ℚ := none
  rerank_score : Option ℚ := none
deriving DecidableEq, Inhabited

/-- Embedding of `rerank_chunks` (reranker.py lines 13-53).  The Cohere
client is an explicit oracle `co` mapping `(query, documents, top_n)` to a
list of `(index, relevance_score)` results; the second component of the
result counts how many external reranking calls were made. -/
def rerank_chunks (co : Str → List Str → Nat → List (Nat × ℚ))
    (query : Str) (chunks : List Chunk) (top_k : Nat) : List Chunk × Nat :=
  if chunks = [] then ([], 0)
  else if chunks.length ≤ top_k then (chunks, 0)
  else
    let documents := chunks.map (fun c => c.text)
    let response := co query documents top_k
    (response.filterMap (fun r =>
      (chunks.get? r.1).map (fun c => { c with rerank_score := some r.2 })), 1)

/-- A sample chunk used by concrete witnesses. -/
def chA : Chunk :=
  { text := "Alpha text.".data, file_id := "A".data, file_name := "docA".data,
    chunk_index := 0, total_chunks := 1 }

/-- Keep-first deduplication, with an accumulator of already-seen elements. -/
def dedupFirstAux {α : Type} [DecidableEq α] : List α → List α → List α
  | _, [] => []
  | seen, x :: xs =>
    if x ∈ seen then dedupFirstAux seen xs
    else x :: dedupFirstAux (x :: seen) xs

/-- Keep-first deduplication: the order of first occurrences. -/
def dedupFirst {α : Type} [DecidableEq α] (l : List α) : List α :=
  dedupFirstAux [] l

/-- The external vector index's state relevant to one query: the full dense
ranking and the full sparse ranking of the stored points for that query
(best first). -/
structure VectorIndex (α : Type) where
  denseRank : List α
  sparseRank : List α

/-- The 1-based rank of `x` in a ranked list (`none` when absent). -/
def rankOf {α : Type} [DecidableEq α] : List α → α → Option Nat
  | [], _ => none
  | y :: ys, x => if y = x then some 1 else (rankOf ys x).map (fun r => r + 1)

/-- One Reciprocal Rank Fusion contribution: `1 / (rank + k)` for a present
item, `0` for an absent one. -/
def rrfTerm (k : ℚ) : Option Nat → ℚ
  | none => 0
  | some r => 1 / ((r : ℚ) + k)

/-- The fused RRF score of `x` given the two ranked lists. -/
def rrfScore {α : Type} [DecidableEq α] (k : ℚ) (dl sl : List α) (x : α) : ℚ :=
  rrfTerm k (rankOf dl x) + rrfTerm k (rankOf sl x)

/-- Insert into a descending-sorted list, after all elements of greater or
equal score (stable). -/
def insertDesc {α : Type} (score : α → ℚ) (x : α) : List α → List α
  | [] => [x]
  | y :: ys => if score y < score x then x :: y :: ys else y :: insertDesc score x ys

/-- Stable sort by descending score (insertion sort, left to right). -/
def sortDesc {α : Type} (score : α → ℚ) (l : List α) : List α :=
  l.foldl (fun acc x => insertDesc score x acc) []

/-- Modelled from the spec: the Reciprocal Rank Fusion performed inside the
external vector index (`FusionQuery(fusion=Fusion.RRF)` in
vector_store.py; spec sections 4.2 and 6).  Candidates are the items of
either prefetched list (dense list first, keeping first occurrences), each
scored by `1/(rank+k)` summed over the lists containing it, ordered by
descending fused score with ties broken by stable input order, truncated to
`limit`. -/
def rrfFuse {α : Type} [DecidableEq α] (k : ℚ) (dl sl : List α) (limit : Nat) : List α :=
  (sortDesc (rrfScore k dl sl) (dedupFirst (dl ++ sl))).take limit

/-- Modelled from the spec: the external index's `query_points` with two
prefetches of the given limits and RRF fusion of the two prefetched lists. -/
def query_points {α : Type} [DecidableEq α] (idx : VectorIndex α) (k : ℚ)
    (denseLimit sparseLimit finalLimit : Nat) : List α :=
  rrfFuse k (idx.denseRank.take denseLimit) (idx.sparseRank.take sparseLimit) finalLimit

/-- Embedding of `search_chunks` (vector_store.py lines 157-215): two
prefetch retrievals limited to `top_k * 2` each, RRF fusion, final limit
`top_k`. -/
def search_chunks {α : Type} [DecidableEq α] (idx : VectorIndex α) (k : ℚ)
    (top_k : Nat) : List α :=
  query_points idx k (top_k * 2) (top_k * 2) top_k

/-- Retrieval through the collection store.  Modelled from the spec: a
missing collection yields the empty sequence rather than an error (spec
section 4.2; the index itself is external to the repository). -/
def searchCollection (store : Str → Option (VectorIndex Chunk)) (folder_id : Str)
    (k : ℚ) (top_k : Nat) : List Chunk :=
  match store folder_id with
  | none => []
  | some idx => search_chunks idx k top_k

/-- The dense prefetch of `search_chunks`: the first `top_k * 2` results of
the dense-similarity retrieval (vector_store.py lines 182-186). -/
def prefetchDense {α : Type} (idx : VectorIndex α) (top_k : Nat) : List α :=
  idx.denseRank.take (top_k * 2)

/-- The sparse prefetch of `search_chunks`: the first `top_k * 2` results of
the sparse-similarity retrieval (vector_store.py lines 187-194). -/
def prefetchSparse {α : Type} (idx : VectorIndex α) (top_k : Nat) : List α :=
  idx.sparseRank.take (top_k * 2)

/-- The two-list example of the spec: item `0` at dense rank 1 / sparse rank
3, item `1` at dense rank 2 / sparse rank 1, item `2` only at sparse rank 2. -/
def idxAB : VectorIndex Nat := ⟨[0, 1], [1, 2, 0]⟩

/-- The ordered-dict state of `group_chunks_by_document`: association list of
`file_id` to that document's chunks, in key insertion order. -/
abbrev Grouped := List (Str × List Chunk)

/-- The keys of the ordered dict, in insertion order. -/
def keysOf (g : Grouped) : List Str := g.map Prod.fst

/-- One `grouped[file_id].append(chunk)` step of a Python `defaultdict(list)`:
append to the existing bucket in place, else add a new key at the end. -/
def dictAppend : Grouped → Str → Chunk → Grouped
  | [], k, c => [(k, [c])]
  | (k', b) :: rest, k, c =>
    if k' = k then (k', b ++ [c]) :: rest
    else (k', b) :: dictAppend rest k c

/-- Embedding of `group_chunks_by_document` (chat.py lines 53-59). -/
def group_chunks_by_document (chunks : List Chunk) : Grouped :=
  chunks.foldl (fun g c => dictAppend g c.file_id c) []

/-- Written from the spec's words, for comparison with
`group_chunks_by_document`: candidates grouped by `source_id` with the
distinct sources in first-seen order and each group in input order. -/
def groupByFirstSeenSpec (chunks : List Chunk) : Grouped :=
  (dedupFirst (chunks.map (fun c => c.file_id))).map
    (fun fid => (fid, chunks.filter (fun c => c.file_id = fid)))

/-- One entry of the `doc_map` built by `build_context_by_document`
(chat.py lines 82-87). -/
structure DocInfo where
  file_id : Str
  file_name : Str
  web_view_link : Option Str
  text : Str
deriving DecidableEq, Inhabited

/-- The `doc_map[doc_num]` value: metadata of the group's first chunk, with
the preview text truncated to 200 characters (`first_chunk['text'][:200]`). -/
def mkDocInfo (fid : Str) (doc_chunks : List Chunk) : DocInfo :=
  { file_id := fid
    file_name := doc_chunks.headI.file_name
    web_view_link := doc_chunks.headI.web_view_link
    text := doc_chunks.headI.text.take 200 }

/-- Decimal rendering of a document number. -/
def renderNum (n : Nat) : Str := Nat.toDigits 10 n

/-- The separator between chunks of one document (`"\n\n".join`). -/
def blankLine : Str := "\n\n".data

/-- The separator between document blocks (`"\n\n---\n\n".join`). -/
def divider : Str := "\n\n---\n\n".data

/-- One context block: `f"[{doc_num}] {file_name}:\n{combined_text}"`. -/
def renderBlock (n : Nat) (file_name combined : Str) : Str :=
  "[".data ++ renderNum n ++ "] ".data ++ file_name ++ ":\n".data ++ combined

/-- Embedding of `build_context_by_document` (chat.py lines 62-96): groups
the chunks, numbers the groups from 1, renders the labelled blocks joined
by the divider, and builds the `doc_map`. -/
def build_context_by_document (chunks : List Chunk) : Str × List (Nat × DocInfo) :=
  let grouped := group_chunks_by_document chunks
  let numbered := (List.range' 1 grouped.length).zip grouped
  (List.intercalate divider (numbered.map (fun p =>
      renderBlock p.1 p.2.2.headI.file_name
        (List.intercalate blankLine (p.2.2.map (fun c => c.text))))),
   numbered.map (fun p => (p.1, mkDocInfo p.2.1 p.2.2)))

/-- Integer value of a string of decimal digits (Python `int(...)` on the
captured group). -/
def natOfDigits (ds : Str) : Nat := ds.foldl (fun a c => 10 * a + (c.toNat - 48)) 0

/-- State machine embedding of `re.findall` for the pattern of
`extract_citation_numbers` (chat.py lines 99-102): a bracketed run of one or
more digits.  The state holds the digits collected since the most recent
unclosed opening bracket, or `none` outside a potential match. -/
def scanAux : Option Str → Str → List Nat
  | _, [] => []
  | none, c :: rest => if c = '[' then scanAux (some []) rest else scanAux none rest
  | some ds, c :: rest =>
    if c.isDigit then scanAux (some (ds ++ [c])) rest
    else if c = ']' then
      if ds = [] then scanAux none rest
      else natOfDigits ds :: scanAux none rest
    else if c = '[' then scanAux (some []) rest
    else scanAux none rest

/-- Embedding of `extract_citation_numbers` (chat.py lines 99-102), as the
list of matched numbers in match order (the Python function wraps this in a
set; ordering and de-duplication are applied by the caller). -/
def scanCitations (s : Str) : List Nat := scanAux none s

/-- The text form of one bracketed citation marker `[<digits>]`. -/
def citationPattern (ds : Str) : Str := '[' :: (ds ++ [']'])

/-- Written from the spec's words, for comparison with `scanCitations`:
the number `n` occurs as a bracketed integer marker somewhere in `s`. -/
def specOccurs (n : Nat) (s : Str) : Prop :=
  ∃ ds : Str, ds ≠ [] ∧ (∀ c ∈ ds, c.isDigit = true) ∧ natOfDigits ds = n ∧
    citationPattern ds <:+: s

/-- The text implicitly to the left of the scanner's current position that
the current state still remembers. -/
def stateCarried : Option Str → Str
  | none => []
  | some ds => '[' :: ds

/-- Insertion into an ascending-sorted list of numbers. -/
def insertAsc (n : Nat) : List Nat → List Nat
  | [] => [n]
  | m :: ms => if n ≤ m then n :: m :: ms else m :: insertAsc n ms

/-- Ascending insertion sort. -/
def sortAsc (l : List Nat) : List Nat := l.foldr insertAsc []

/-- The `sorted(cited_numbers)` of chat.py line 161, where `cited_numbers`
is the set of scanned citation numbers: the distinct scanned numbers in
ascending order. -/
def citedSorted (answer : Str) : List Nat := sortAsc (dedupFirst (scanCitations answer))

/-- The `Citation` response model (chat.py lines 26-31). -/
structure Citation where
  file_name : Str
  file_id : Str
  web_view_link : Option Str
  chunk_index : Nat
  text : Str
deriving DecidableEq, Inhabited

/-- The `ChatResponse` response model (chat.py lines 34-36). -/
structure ChatResponse where
  answer : Str
  citations : List Citation
deriving DecidableEq

/-- The canned no-information answer (chat.py line 127). -/
def NO_INFO_ANSWER : Str :=
  "I couldn\x27t find any relevant information in the documents to answer your question.".data

/-- A `Citation` built from one `doc_map` entry (chat.py lines 164-170):
note the hard-coded `chunk_index = 0` and the 200-character preview text. -/
def mkCitation (d : DocInfo) : Citation :=
  { file_name := d.file_name, file_id := d.file_id, web_view_link := d.web_view_link,
    chunk_index := 0, text := d.text }

/-- Total version of the `doc_map[doc_num]` access for the map form of
the citation list (out-of-map numbers give a dummy, they are filtered out). -/
def citationOf (doc_map : List (Nat × DocInfo)) (n : Nat) : Citation :=
  match doc_map.lookup n with
  | some d => mkCitation d
  | none => { file_name := [], file_id := [], web_view_link := none,
              chunk_index := 0, text := [] }

/-- Steps 5-6 of `ask_question` (chat.py lines 156-170): the distinct scanned
citation numbers of the answer, ascending, each resolved through `doc_map`;
unresolved numbers are silently dropped. -/
def reconcileCitations (answer : Str) (doc_map : List (Nat × DocInfo)) : List Citation :=
  (citedSorted answer).filterMap (fun n => (doc_map.lookup n).map mkCitation)

/-- Embedding of the `ask_question` pipeline (chat.py lines 105-175): hybrid
search with `top_k = 15`, early exit on no candidates, rerank to 10, build
context, generate (`gen` is the external generation service applied to the
rendered context), extract and reconcile citations. -/
def ask_question (store : Str → Option (VectorIndex Chunk)) (k : ℚ)
    (co : Str → List Str → Nat → List (Nat × ℚ)) (gen : Str → Str)
    (folder_id question : Str) : ChatResponse :=
  let initial := searchCollection store folder_id k 15
  if initial = [] then { answer := NO_INFO_ANSWER, citations := [] }
  else
    let reranked := (rerank_chunks co question initial 10).1
    let bc := build_context_by_document reranked
    let answer := gen bc.1
    { answer := answer, citations := reconcileCitations answer bc.2 }

/-- A chunk whose own text contains a bracketed number. -/
def chBr : Chunk :=
  { text := "[2] hello".data, file_id := "A".data, file_name := "docA".data,
    chunk_index := 0, total_chunks := 1 }

/-- A store holding one collection with a single chunk. -/
def store1 : Str → Option (VectorIndex Chunk) := fun _ => some ⟨[chA], [chA]⟩

lemma pyStrip_badText : pyStrip badText = badText := by decide

lemma chunkLoop_bad_step (fuel : Nat) (acc : List Str) :
    chunkLoop badText 10 9 (fuel + 1) 0 acc =
      chunkLoop badText 10 9 fuel 0 (acc ++ ["aaaaaaaa".data]) := rfl

lemma chunkLoop_bad_none : ∀ (fuel : Nat) (acc : List Str),
    chunkLoop badText 10 9 fuel 0 acc = none := by
  intro fuel
  induction fuel with
  | zero => intro acc; rfl
  | succ n ih => intro acc; rw [chunkLoop_bad_step]; exact ih _

/-- C1: the claim that `chunk_text` terminates for every `0 ≤ overlap <
chunk_size` is false: with `chunk_size = 10`, `overlap = 9` and the text
`"aaaaaaaa  aaaa"`, the word-boundary fallback pulls the chunk end back to
offset 9, so the next start is `9 - 9 = 0` and the loop revisits the same
state forever; the `start >= len(text) - chunk_overlap` guard (0 ≥ 5) never
fires.  Formally: the loop exhausts any amount of fuel. -/
theorem chunk_text_diverges_on_valid_params :
    ∀ fuel : Nat, chunk_text badText 10 9 fuel = none := by
  intro fuel
  have h : chunk_text badText 10 9 fuel = chunkLoop badText 10 9 fuel 0 [] := by
    simp only [chunk_text, pyStrip_badText]
    rw [if_neg (by decide : ¬ badText = []), if_neg (by decide : ¬ badText.length ≤ 10)]
  rw [h]
  exact chunkLoop_bad_none fuel []

lemma pyStrip_sublist (s : Str) : (pyStrip s).Sublist s := by
  have h1 : (s.dropWhile pySpace).Sublist s := List.dropWhile_sublist _
  have h2 : ((s.dropWhile pySpace).reverse.dropWhile pySpace).Sublist
      (s.dropWhile pySpace).reverse := List.dropWhile_sublist _
  have h3 := h2.reverse
  simp only [List.reverse_reverse] at h3
  exact h3.trans h1

lemma pyStrip_length_le (s : Str) : (pyStrip s).length ≤ s.length :=
  (pyStrip_sublist s).length_le

/-- C7 (amended): for every text with `len(text) ≤ chunk_size`, `chunk_text`
returns the trimmed text as a single chunk when the trimmed text is
non-empty, and the empty sequence when the text is empty **or consists only
of whitespace**. -/
theorem chunk_text_short_text (text : Str) (chunk_size chunk_overlap fuel : Nat)
    (h : text.length ≤ chunk_size) :
    chunk_text text chunk_size chunk_overlap fuel =
      some (if pyStrip text = [] then [] else [pyStrip text]) := by
  by_cases hs : pyStrip text = []
  · simp [chunk_text, hs]
  · have hlen : (pyStrip text).length ≤ chunk_size :=
      le_trans (pyStrip_length_le text) h
    simp [chunk_text, hs, hlen]

/-- C7 witness: a concrete short text. -/
theorem chunk_text_short_text_witness :
    chunk_text "hi".data 800 100 0 =
      some (if pyStrip "hi".data = [] then [] else [pyStrip "hi".data]) :=
  chunk_text_short_text "hi".data 800 100 0 (by decide)

/-- C7 counterexample: the whitespace-only text `" "` is non-empty and has
length `≤ chunk_size`, yet `chunk_text` returns the empty sequence rather
than one chunk equal to the trimmed input. -/
theorem chunk_text_whitespace_counterexample :
    chunk_text " ".data 800 100 0 = some [] ∧ " ".data ≠ ([] : Str) ∧
      ([] : List Str) ≠ [pyStrip " ".data] := by
  refine ⟨by decide, by decide, by decide⟩

/-- C8 (amended): `chunk_text` performs no parameter validation: with
`chunk_size ≤ chunk_overlap` it does not fail with an input error; in
particular any text whose trimmed form is non-empty and no longer than
`chunk_size` still yields that single chunk. -/
theorem chunk_text_no_param_validation (text : Str) (chunk_size chunk_overlap fuel : Nat)
    (_hbad : chunk_size ≤ chunk_overlap) (hne : pyStrip text ≠ [])
    (hlen : text.length ≤ chunk_size) :
    chunk_text text chunk_size chunk_overlap fuel = some [pyStrip text] := by
  have := chunk_text_short_text text chunk_size chunk_overlap fuel hlen
  simp [hne] at this
  exact this

/-- C8 witness: concrete malformed parameters `chunk_size = 2 ≤ 3 = overlap`. -/
theorem chunk_text_no_param_validation_witness :
    chunk_text "hi".data 2 3 0 = some [pyStrip "hi".data] :=
  chunk_text_no_param_validation "hi".data 2 3 0 (by decide) (by decide) (by decide)

/-- C8 counterexample: with `chunk_size = 2 ≤ 3 = chunk_overlap` the call
succeeds and produces a chunk instead of reporting a malformed-parameters
error. -/
theorem chunk_text_no_input_error_counterexample :
    chunk_text "hi".data 2 3 0 = some ["hi".data] ∧ 2 ≤ 3 := by
  refine ⟨by decide, by decide⟩

/-- C9: when `len(candidates) ≤ top_k`, `rerank_chunks` returns the
candidate list unchanged, in the same order, and makes no call to the
external reranking service (call count 0). -/
theorem rerank_small_unchanged (co : Str → List Str → Nat → List (Nat × ℚ))
    (query : Str) (chunks : List Chunk) (top_k : Nat)
    (h : chunks.length ≤ top_k) :
    rerank_chunks co query chunks top_k = (chunks, 0) := by
  by_cases he : chunks = []
  · subst he; simp [rerank_chunks]
  · simp [rerank_chunks, he, h]

/-- C9 witness: one candidate, `top_k = 5`, no call made. -/
theorem rerank_small_unchanged_witness :
    rerank_chunks (fun _ _ _ => []) "q".data [chA] 5 = ([chA], 0) :=
  rerank_small_unchanged (fun _ _ _ => []) "q".data [chA] 5 (by decide)

lemma dedupFirstAux_cons {α : Type} [DecidableEq α] (seen : List α) (x : α) (xs : List α) :
    dedupFirstAux seen (x :: xs) =
      if x ∈ seen then dedupFirstAux seen xs
      else x :: dedupFirstAux (x :: seen) xs := rfl

lemma mem_dedupFirstAux {α : Type} [DecidableEq α] (x : α) :
    ∀ (l seen : List α), x ∈ dedupFirstAux seen l ↔ x ∈ l ∧ x ∉ seen := by
  intro l
  induction l with
  | nil => intro seen; simp [dedupFirstAux]
  | cons y ys ih =>
    intro seen
    rw [dedupFirstAux]
    by_cases hy : y ∈ seen
    · rw [if_pos hy, ih]
      by_cases hxy : x = y
      · subst hxy; simp [hy]
      · simp [hxy]
    · rw [if_neg hy]
      simp only [List.mem_cons, ih, List.mem_cons]
      by_cases hxy : x = y
      · subst hxy; simp [hy]
      · simp [hxy]

lemma mem_dedupFirst {α : Type} [DecidableEq α] (l : List α) (x : α) :
    x ∈ dedupFirst l ↔ x ∈ l := by
  simp [dedupFirst, mem_dedupFirstAux]

lemma dedupFirstAux_nodup {α : Type} [DecidableEq α] :
    ∀ (l seen : List α), (dedupFirstAux seen l).Nodup := by
  intro l
  induction l with
  | nil => intro seen; simp [dedupFirstAux]
  | cons y ys ih =>
    intro seen
    rw [dedupFirstAux]
    by_cases hy : y ∈ seen
    · rw [if_pos hy]; exact ih seen
    · rw [if_neg hy]
      refine List.nodup_cons.2 ⟨?_, ih (y :: seen)⟩
      intro hmem
      have := (mem_dedupFirstAux y ys (y :: seen)).1 hmem
      simp at this

lemma dedupFirst_nodup {α : Type} [DecidableEq α] (l : List α) :
    (dedupFirst l).Nodup :=
  dedupFirstAux_nodup l []

lemma dedupFirstAux_congr {α : Type} [DecidableEq α] :
    ∀ (l seen₁ seen₂ : List α), (∀ x, x ∈ seen₁ ↔ x ∈ seen₂) →
      dedupFirstAux seen₁ l = dedupFirstAux seen₂ l := by
  intro l
  induction l with
  | nil => intro _ _ _; rfl
  | cons y ys ih =>
    intro seen₁ seen₂ h
    rw [dedupFirstAux, dedupFirstAux]
    by_cases hy : y ∈ seen₁
    · rw [if_pos hy, if_pos ((h y).1 hy)]
      exact ih seen₁ seen₂ h
    · rw [if_neg hy, if_neg (fun hc => hy ((h y).2 hc))]
      refine congrArg _ (ih (y :: seen₁) (y :: seen₂) ?_)
      intro x
      simp only [List.mem_cons]
      exact or_congr Iff.rfl (h x)

lemma mem_insertDesc {α : Type} (score : α → ℚ) (x z : α) :
    ∀ l : List α, z ∈ insertDesc score x l ↔ z = x ∨ z ∈ l := by
  intro l
  induction l with
  | nil => simp [insertDesc]
  | cons y ys ih =>
    rw [insertDesc]
    by_cases hlt : score y < score x
    · simp [hlt]
    · simp only [hlt, if_false, List.mem_cons, ih]
      tauto

lemma insertDesc_pairwise {α : Type} (score : α → ℚ) (x : α) :
    ∀ l : List α, l.Pairwise (fun a b => score b ≤ score a) →
      (insertDesc score x l).Pairwise (fun a b => score b ≤ score a) := by
  intro l
  induction l with
  | nil => intro _; simp [insertDesc]
  | cons y ys ih =>
    intro h
    rw [insertDesc]
    rcases List.pairwise_cons.1 h with ⟨hy, hys⟩
    by_cases hlt : score y < score x
    · rw [if_pos hlt]
      refine List.pairwise_cons.2 ⟨?_, h⟩
      intro z hz
      rcases List.mem_cons.1 hz with hz | hz
      · subst hz; exact le_of_lt hlt
      · exact le_trans (hy z hz) (le_of_lt hlt)
    · rw [if_neg hlt]
      refine List.pairwise_cons.2 ⟨?_, ih hys⟩
      intro z hz
      rcases (mem_insertDesc score x z ys).1 hz with hz | hz
      · subst hz; exact le_of_not_lt hlt
      · exact hy z hz

lemma sortDesc_pairwise {α : Type} (score : α → ℚ) (l : List α) :
    (sortDesc score l).Pairwise (fun a b => score b ≤ score a) := by
  have key : ∀ (m : List α) (acc : List α),
      acc.Pairwise (fun a b => score b ≤ score a) →
      (m.foldl (fun acc x => insertDesc score x acc) acc).Pairwise
        (fun a b => score b ≤ score a) := by
    intro m
    induction m with
    | nil => intro acc hacc; exact hacc
    | cons x xs ih =>
      intro acc hacc
      exact ih (insertDesc score x acc) (insertDesc_pairwise score x acc hacc)
  exact key l [] List.Pairwise.nil

lemma filter_insertDesc {α : Type} (score : α → ℚ) (x : α) (c : ℚ) :
    ∀ l : List α, l.Pairwise (fun a b => score b ≤ score a) →
      (insertDesc score x l).filter (fun y => decide (score y = c)) =
        if score x = c then
          l.filter (fun y => decide (score y = c)) ++ [x]
        else l.filter (fun y => decide (score y = c)) := by
  intro l
  induction l with
  | nil =>
    intro _
    by_cases hc : score x = c <;> simp [insertDesc, hc]
  | cons y ys ih =>
    intro h
    rcases List.pairwise_cons.1 h with ⟨hy, hys⟩
    rw [insertDesc]
    by_cases hlt : score y < score x
    · rw [if_pos hlt]
      by_cases hc : score x = c
      · have hnone : (y :: ys).filter (fun z => decide (score z = c)) = [] := by
          rw [List.filter_eq_nil_iff]
          intro z hz
          rcases List.mem_cons.1 hz with hz | hz
          · subst hz
            simp only [decide_eq_true_eq]
            intro hzc
            exact absurd (hzc.trans hc.symm) (ne_of_lt hlt)
          · simp only [decide_eq_true_eq]
            intro hzc
            have hle := hy z hz
            have : score z < score x := lt_of_le_of_lt hle hlt
            exact absurd (hzc.trans hc.symm) (ne_of_lt this)
        rw [if_pos hc]
        rw [List.filter_cons_of_pos (by simp [hc]), hnone]
        rfl
      · rw [if_neg hc]
        rw [List.filter_cons_of_neg (by simp [hc])]
    · rw [if_neg hlt]
      by_cases hyc : score y = c
      · rw [List.filter_cons_of_pos (by simp [hyc]),
            List.filter_cons_of_pos (by simp [hyc]), ih hys]
        by_cases hc : score x = c
        · rw [if_pos hc, if_pos hc]; rfl
        · rw [if_neg hc, if_neg hc]
      · rw [List.filter_cons_of_neg (by simp [hyc]),
            List.filter_cons_of_neg (by simp [hyc]), ih hys]

lemma sortDesc_filter_stable {α : Type} (score : α → ℚ) (c : ℚ) (l : List α) :
    (sortDesc score l).filter (fun y => decide (score y = c)) =
      l.filter (fun y => decide (score y = c)) := by
  have key : ∀ (m : List α) (acc : List α),
      acc.Pairwise (fun a b => score b ≤ score a) →
      (m.foldl (fun acc x => insertDesc score x acc) acc).filter
          (fun y => decide (score y = c)) =
        acc.filter (fun y => decide (score y = c)) ++
          m.filter (fun y => decide (score y = c)) := by
    intro m
    induction m with
    | nil => intro acc _; simp
    | cons x xs ih =>
      intro acc hacc
      have step := ih (insertDesc score x acc) (insertDesc_pairwise score x acc hacc)
      rw [List.foldl_cons, step, filter_insertDesc score x c acc hacc]
      by_cases hc : score x = c
      · rw [if_pos hc, List.filter_cons_of_pos (by simp [hc]), List.append_assoc]
        rfl
      · rw [if_neg hc, List.filter_cons_of_neg (by simp [hc])]
  have := key l [] List.Pairwise.nil
  simpa [sortDesc] using this

/-- C2: `search_chunks` issues two independent top-`2·top_k` retrievals and
returns the top `top_k` candidates in descending Reciprocal Rank Fusion
order: the result is the `top_k`-prefix of the stable descending sort of
the deduplicated candidates; the fused score of an item of 1-based dense
rank `r₁` and sparse rank `r₂` is `1/(r₁+k) + 1/(r₂+k)`, with a single term
when the item is in only one list; equal-score items keep their input
order (their filtered subsequence is a prefix of the input's). -/
theorem search_chunks_rrf_spec {α : Type} [DecidableEq α]
    (idx : VectorIndex α) (k : ℚ) (top_k : Nat) :
    search_chunks idx k top_k =
      (sortDesc (rrfScore k (prefetchDense idx top_k) (prefetchSparse idx top_k))
        (dedupFirst (prefetchDense idx top_k ++ prefetchSparse idx top_k))).take top_k
    ∧ (search_chunks idx k top_k).length ≤ top_k
    ∧ (sortDesc (rrfScore k (prefetchDense idx top_k) (prefetchSparse idx top_k))
        (dedupFirst (prefetchDense idx top_k ++ prefetchSparse idx top_k))).Pairwise
        (fun a b => rrfScore k (prefetchDense idx top_k) (prefetchSparse idx top_k) b ≤
          rrfScore k (prefetchDense idx top_k) (prefetchSparse idx top_k) a)
    ∧ (∀ c : ℚ,
        (search_chunks idx k top_k).filter
            (fun y => decide (rrfScore k (prefetchDense idx top_k) (prefetchSparse idx top_k) y = c)) <+:
          (dedupFirst (prefetchDense idx top_k ++ prefetchSparse idx top_k)).filter
            (fun y => decide (rrfScore k (prefetchDense idx top_k) (prefetchSparse idx top_k) y = c)))
    ∧ (∀ (x : α) (r₁ r₂ : Nat),
        rankOf (prefetchDense idx top_k) x = some r₁ →
        rankOf (prefetchSparse idx top_k) x = some r₂ →
        rrfScore k (prefetchDense idx top_k) (prefetchSparse idx top_k) x =
          1 / ((r₁ : ℚ) + k) + 1 / ((r₂ : ℚ) + k))
    ∧ (∀ (x : α) (r₁ : Nat),
        rankOf (prefetchDense idx top_k) x = some r₁ →
        rankOf (prefetchSparse idx top_k) x = none →
        rrfScore k (prefetchDense idx top_k) (prefetchSparse idx top_k) x =
          1 / ((r₁ : ℚ) + k))
    ∧ (∀ (x : α) (r₂ : Nat),
        rankOf (prefetchDense idx top_k) x = none →
        rankOf (prefetchSparse idx top_k) x = some r₂ →
        rrfScore k (prefetchDense idx top_k) (prefetchSparse idx top_k) x =
          1 / ((r₂ : ℚ) + k)) := by
  refine ⟨rfl, ?_, ?_, ?_, ?_, ?_, ?_⟩
  · exact List.length_take_le _ _
  · exact sortDesc_pairwise _ _
  · intro c
    have h1 : search_chunks idx k top_k <+:
        sortDesc (rrfScore k (prefetchDense idx top_k) (prefetchSparse idx top_k))
          (dedupFirst (prefetchDense idx top_k ++ prefetchSparse idx top_k)) :=
      List.take_prefix _ _
    have h2 := h1.filter
      (fun y => decide (rrfScore k (prefetchDense idx top_k) (prefetchSparse idx top_k) y = c))
    rw [sortDesc_filter_stable] at h2
    exact h2
  · intro x r₁ r₂ h1 h2
    simp [rrfScore, h1, h2, rrfTerm]
  · intro x r₁ h1 h2
    simp [rrfScore, h1, h2, rrfTerm]
  · intro x r₂ h1 h2
    simp [rrfScore, h1, h2, rrfTerm]

/-- C2 witness: with `k = 60` the fused score of item `0` is
`1/61 + 1/63`, and item `1` (score `1/62 + 1/61`) ranks first. -/
theorem search_chunks_rrf_spec_witness :
    rrfScore 60 (prefetchDense idxAB 2) (prefetchSparse idxAB 2) 0 = 1 / 61 + 1 / 63
    ∧ search_chunks idxAB (60 : ℚ) 2 = [1, 0] :=
  ⟨((search_chunks_rrf_spec idxAB 60 2).2.2.2.2.1 0 1 3 (by decide)
      (by decide)).trans (by norm_num),
   by norm_num [search_chunks, query_points, prefetchDense, prefetchSparse, idxAB,
     rrfFuse, dedupFirst, dedupFirstAux, sortDesc, insertDesc, rrfScore, rrfTerm, rankOf]⟩

lemma keysOf_nil : keysOf [] = [] := rfl

lemma keysOf_cons (p : Str × List Chunk) (g : Grouped) :
    keysOf (p :: g) = p.1 :: keysOf g := rfl

lemma dictAppend_of_notMem (k : Str) (c : Chunk) :
    ∀ g : Grouped, k ∉ keysOf g → dictAppend g k c = g ++ [(k, [c])] := by
  intro g
  induction g with
  | nil => intro _; rfl
  | cons p rest ih =>
    intro h
    obtain ⟨k', b⟩ := p
    rw [keysOf_cons] at h
    simp only [List.mem_cons, not_or] at h
    rw [dictAppend, if_neg (fun hc => h.1 hc.symm), ih h.2]
    rfl

lemma map_update_of_notMem (k : Str) (f : List Chunk → List Chunk) :
    ∀ g : Grouped, k ∉ keysOf g →
      g.map (fun p => if p.1 = k then (p.1, f p.2) else p) = g := by
  intro g
  induction g with
  | nil => intro _; rfl
  | cons p rest ih =>
    intro h
    rw [keysOf_cons] at h
    simp only [List.mem_cons, not_or] at h
    rw [List.map_cons, if_neg (fun hc => h.1 hc.symm), ih h.2]

lemma dictAppend_of_mem (k : Str) (c : Chunk) :
    ∀ g : Grouped, (keysOf g).Nodup → k ∈ keysOf g →
      dictAppend g k c = g.map (fun p => if p.1 = k then (p.1, p.2 ++ [c]) else p) := by
  intro g
  induction g with
  | nil => intro _ h; simp [keysOf] at h
  | cons p rest ih =>
    intro hnd hmem
    obtain ⟨k', b⟩ := p
    rw [keysOf_cons] at hnd hmem
    rcases List.nodup_cons.1 hnd with ⟨hknotin, hndrest⟩
    by_cases hk : k' = k
    · subst hk
      rw [dictAppend, if_pos rfl, List.map_cons, if_pos rfl,
          map_update_of_notMem k' (fun b => b ++ [c]) rest hknotin]
    · rcases List.mem_cons.1 hmem with hmem | hmem
      · exact absurd hmem.symm hk
      · rw [dictAppend, if_neg hk, List.map_cons, if_neg hk, ih hndrest hmem]

lemma keysOf_map_update (k : Str) (f : List Chunk → List Chunk) (g : Grouped) :
    keysOf (g.map (fun p => if p.1 = k then (p.1, f p.2) else p)) = keysOf g := by
  simp only [keysOf, List.map_map]
  refine List.map_congr_left ?_
  intro p _
  by_cases hp : p.1 = k
  · simp [hp]
  · simp [hp]

lemma foldl_dictAppend_spec :
    ∀ (cs : List Chunk) (g : Grouped), (keysOf g).Nodup →
      cs.foldl (fun g c => dictAppend g c.file_id c) g =
        g.map (fun p => (p.1, p.2 ++ cs.filter (fun c => c.file_id = p.1)))
        ++ (dedupFirstAux (keysOf g) (cs.map (fun c => c.file_id))).map
             (fun fid => (fid, cs.filter (fun c => c.file_id = fid))) := by
  intro cs
  induction cs with
  | nil =>
    intro g _
    simp only [List.foldl_nil, List.map_nil, dedupFirstAux, List.filter_nil,
      List.append_nil]
    exact (List.map_id g).symm
  | cons c cs' ih =>
    intro g hnd
    rw [List.foldl_cons]
    by_cases hmem : c.file_id ∈ keysOf g
    · rw [dictAppend_of_mem c.file_id c g hnd hmem]
      have hkeys := keysOf_map_update c.file_id (fun b => b ++ [c]) g
      have hnd' : (keysOf (g.map (fun p =>
          if p.1 = c.file_id then (p.1, p.2 ++ [c]) else p))).Nodup := by
        rw [hkeys]; exact hnd
      rw [ih _ hnd', hkeys]
      congr 1
      · rw [List.map_map]
        refine List.map_congr_left ?_
        intro p _
        by_cases hp : p.1 = c.file_id
        · simp only [Function.comp_apply, if_pos hp]
          rw [List.filter_cons_of_pos (by simp [hp])]
          simp [List.append_assoc]
        · simp only [Function.comp_apply, if_neg hp]
          rw [List.filter_cons_of_neg (by simp; exact fun hc => hp hc.symm)]
      · rw [List.map_cons, dedupFirstAux_cons, if_pos hmem]
        refine List.map_congr_left ?_
        intro fid hfid
        have hnotin := ((mem_dedupFirstAux fid _ _).1 hfid).2
        have hne : ¬ c.file_id = fid := fun hc => hnotin (hc ▸ hmem)
        rw [List.filter_cons_of_neg (by simp [hne])]
    · rw [dictAppend_of_notMem c.file_id c g hmem]
      have hkeys : keysOf (g ++ [(c.file_id, [c])]) = keysOf g ++ [c.file_id] := by
        simp [keysOf]
      have hnd' : (keysOf (g ++ [(c.file_id, [c])])).Nodup := by
        rw [hkeys, List.nodup_append]
        exact ⟨hnd, List.nodup_singleton _, by
          intro a ha hb
          simp only [List.mem_singleton] at hb
          exact hmem (hb ▸ ha)⟩
      rw [ih _ hnd', hkeys]
      simp only [List.map_append, List.map_singleton, List.map_cons,
        dedupFirstAux_cons, if_neg hmem]
      rw [List.append_assoc, List.singleton_append]
      congr 1
      · refine List.map_congr_left ?_
        intro p hp
        have hpk : p.1 ∈ keysOf g := List.mem_map_of_mem Prod.fst hp
        have hne : ¬ c.file_id = p.1 := fun hc => hmem (hc ▸ hpk)
        rw [List.filter_cons_of_neg (by simp [hne])]
      · rw [List.filter_cons_of_pos (by simp)]
        simp only [List.map_nil, List.cons_append, List.nil_append]
        congr 1
        have hcongr := dedupFirstAux_congr (cs'.map (fun c => c.file_id))
          (keysOf g ++ [c.file_id]) (c.file_id :: keysOf g)
          (by intro x; simp [or_comm])
        rw [hcongr]
        refine List.map_congr_left ?_
        intro fid hfid
        have hnotin := ((mem_dedupFirstAux fid _ _).1 hfid).2
        have hne : ¬ c.file_id = fid := by
          intro hc
          exact hnotin (by simp [hc])
        rw [List.filter_cons_of_neg (by simp [hne])]

lemma group_eq_spec (chunks : List Chunk) :
    group_chunks_by_document chunks = groupByFirstSeenSpec chunks := by
  have h := foldl_dictAppend_spec chunks [] (by simp [keysOf])
  simpa [group_chunks_by_document, groupByFirstSeenSpec, dedupFirst, keysOf] using h

/-- C4: `build_context_by_document` groups candidates by `source_id` in
first-seen order, assigns reference numbers `1..N` to the `N` distinct
sources in that order, and renders each group as the block
`"[n] <source_name>:\n"` followed by that source's chunk texts in input
order joined by a blank line, blocks joined by the divider. -/
theorem build_context_groups_and_renders (chunks : List Chunk) :
    group_chunks_by_document chunks =
      (dedupFirst (chunks.map (fun c => c.file_id))).map
        (fun fid => (fid, chunks.filter (fun c => c.file_id = fid)))
    ∧ (build_context_by_document chunks).2 =
      ((List.range' 1 (dedupFirst (chunks.map (fun c => c.file_id))).length).zip
          (dedupFirst (chunks.map (fun c => c.file_id)))).map
        (fun p => (p.1, mkDocInfo p.2 (chunks.filter (fun c => c.file_id = p.2))))
    ∧ (build_context_by_document chunks).1 =
      List.intercalate divider
        (((List.range' 1 (dedupFirst (chunks.map (fun c => c.file_id))).length).zip
            (dedupFirst (chunks.map (fun c => c.file_id)))).map
          (fun p => renderBlock p.1
            ((chunks.filter (fun c => c.file_id = p.2)).headI.file_name)
            (List.intercalate blankLine
              ((chunks.filter (fun c => c.file_id = p.2)).map (fun c => c.text))))) := by
  have hg := group_eq_spec chunks
  refine ⟨hg, ?_, ?_⟩
  · show (build_context_by_document chunks).2 = _
    simp only [build_context_by_document]
    rw [hg]
    unfold groupByFirstSeenSpec
    rw [List.length_map, List.zip_map_right, List.map_map]
    rfl
  · show (build_context_by_document chunks).1 = _
    simp only [build_context_by_document]
    rw [hg]
    unfold groupByFirstSeenSpec
    rw [List.length_map, List.zip_map_right, List.map_map]
    rfl

lemma specOccurs_mono {n : Nat} {t s : Str} (h : specOccurs n t) (hts : t <:+: s) :
    specOccurs n s := by
  obtain ⟨ds, h1, h2, h3, h4⟩ := h
  exact ⟨ds, h1, h2, h3, h4.trans hts⟩

lemma suffix_infix_append (a b : Str) : b <:+: a ++ b :=
  List.IsSuffix.isInfix (List.suffix_append a b)

lemma scanAux_sound :
    ∀ (s : Str) (st : Option Str),
      (∀ ds, st = some ds → ∀ c ∈ ds, c.isDigit = true) →
      ∀ n, n ∈ scanAux st s → specOccurs n (stateCarried st ++ s) := by
  intro s
  induction s with
  | nil => intro st _ n hn; simp [scanAux] at hn
  | cons c rest ih =>
    intro st hst n hn
    match st with
    | none =>
      rw [scanAux] at hn
      by_cases hc : c = '['
      · rw [if_pos hc] at hn
        have := ih (some []) (by intro ds hds; cases hds; intro c hc; simp at hc) n hn
        simpa [stateCarried, hc] using this
      · rw [if_neg hc] at hn
        have := ih none (by intro ds hds; cases hds) n hn
        simp only [stateCarried, List.nil_append] at this ⊢
        exact specOccurs_mono this (List.infix_cons (List.infix_refl rest))
    | some ds =>
      have hdig := hst ds rfl
      rw [scanAux] at hn
      simp only [stateCarried] at *
      by_cases hd : c.isDigit
      · rw [if_pos hd] at hn
        have := ih (some (ds ++ [c])) (by
          intro ds' hds'; cases hds'
          intro x hx
          rcases List.mem_append.1 hx with hx | hx
          · exact hdig x hx
          · simp only [List.mem_singleton] at hx; exact hx ▸ hd) n hn
        simp only [stateCarried] at this
        have heq : '[' :: (ds ++ [c]) ++ rest = '[' :: ds ++ (c :: rest) := by
          simp
        rwa [heq] at this
      · rw [if_neg hd] at hn
        by_cases hbr : c = ']'
        · rw [if_pos hbr] at hn
          by_cases hds0 : ds = []
          · rw [if_pos hds0] at hn
            have := ih none (by intro ds' hds'; cases hds') n hn
            simp only [stateCarried, List.nil_append] at this
            refine specOccurs_mono this ?_
            have : rest <:+ '[' :: ds ++ (c :: rest) := by
              refine ⟨'[' :: ds ++ [c], by simp⟩
            exact List.IsSuffix.isInfix this
          · rw [if_neg hds0] at hn
            rcases List.mem_cons.1 hn with hn | hn
            · refine ⟨ds, hds0, hdig, hn.symm, ?_⟩
              refine ⟨[], rest, ?_⟩
              simp [citationPattern, hbr]
            · have := ih none (by intro ds' hds'; cases hds') n hn
              simp only [stateCarried, List.nil_append] at this
              refine specOccurs_mono this ?_
              have : rest <:+ '[' :: ds ++ (c :: rest) := ⟨'[' :: ds ++ [c], by simp⟩
              exact List.IsSuffix.isInfix this
        · rw [if_neg hbr] at hn
          by_cases hbr2 : c = '['
          · rw [if_pos hbr2] at hn
            have := ih (some []) (by intro ds' hds'; cases hds'; intro x hx; simp at hx) n hn
            simp only [stateCarried] at this
            refine specOccurs_mono this ?_
            have : '[' :: [] ++ rest <:+ '[' :: ds ++ (c :: rest) := by
              refine ⟨'[' :: ds, by simp [hbr2]⟩
            exact List.IsSuffix.isInfix this
          · rw [if_neg hbr2] at hn
            have := ih none (by intro ds' hds'; cases hds') n hn
            simp only [stateCarried, List.nil_append] at this
            refine specOccurs_mono this ?_
            have : rest <:+ '[' :: ds ++ (c :: rest) := ⟨'[' :: ds ++ [c], by simp⟩
            exact List.IsSuffix.isInfix this

lemma scan_sound (s : Str) (n : Nat) (h : n ∈ scanCitations s) : specOccurs n s := by
  have := scanAux_sound s none (by intro ds hds; cases hds) n h
  simpa [stateCarried] using this

lemma scanAux_through_digits (s : Str) :
    ∀ (extra ds : Str), (∀ c ∈ extra, c.isDigit = true) →
      scanAux (some ds) (extra ++ s) = scanAux (some (ds ++ extra)) s := by
  intro extra
  induction extra with
  | nil => intro ds _; simp
  | cons e es ih =>
    intro ds hdig
    have he : e.isDigit = true := hdig e (List.mem_cons_self e es)
    rw [List.cons_append, scanAux, if_pos he, ih (ds ++ [e])
      (fun c hc => hdig c (List.mem_cons_of_mem e hc))]
    simp

lemma scanAux_emit (v : Str) (extra ds : Str) (hdig : ∀ c ∈ extra, c.isDigit = true)
    (hne : ds ++ extra ≠ []) :
    scanAux (some ds) (extra ++ ']' :: v) =
      natOfDigits (ds ++ extra) :: scanAux none v := by
  rw [scanAux_through_digits (']' :: v) extra ds hdig, scanAux]
  rw [if_neg (by decide : ¬ (']' : Char).isDigit = true), if_pos rfl, if_neg hne]

lemma pattern_split_at_head :
    ∀ (ds mid s v : Str), (∀ c ∈ ds, c.isDigit = true) → (∀ c ∈ mid, c.isDigit = true) →
      mid ++ ']' :: v = ds ++ s →
      ∃ extra : Str, (∀ c ∈ extra, c.isDigit = true) ∧ mid = ds ++ extra ∧
        s = extra ++ ']' :: v := by
  intro ds
  induction ds with
  | nil =>
    intro mid s v _ hmid h
    exact ⟨mid, hmid, rfl, by simpa using h.symm⟩
  | cons d ds' ih =>
    intro mid s v hds hmid h
    match mid with
    | [] =>
      exfalso
      simp only [List.nil_append, List.cons_append] at h
      have : (']' : Char) = d := by exact (List.cons_eq_cons.1 h).1
      have hd : d.isDigit = true := hds d (List.mem_cons_self d ds')
      rw [← this] at hd
      simp at hd
    | m :: mid' =>
      simp only [List.cons_append] at h
      rcases List.cons_eq_cons.1 h with ⟨hmd, htail⟩
      obtain ⟨extra, hex1, hex2, hex3⟩ := ih mid' s v
        (fun c hc => hds c (List.mem_cons_of_mem d hc))
        (fun c hc => hmid c (List.mem_cons_of_mem m hc)) htail
      exact ⟨extra, hex1, by rw [hmd, hex2]; rfl, hex3⟩

lemma pattern_infix_right :
    ∀ (ds : Str) (u pat v s : Str), (∀ c ∈ ds, c.isDigit = true) →
      pat.head? = some '[' → u ++ pat ++ v = ds ++ s → pat <:+: s := by
  intro ds
  induction ds with
  | nil =>
    intro u pat v s _ _ h
    exact ⟨u, v, by simpa using h⟩
  | cons d ds' ih =>
    intro u pat v s hds hhead h
    match u with
    | [] =>
      exfalso
      cases pat with
      | nil => simp at hhead
      | cons p₀ pt =>
        have hp : p₀ = '[' := by simpa using hhead
        simp only [List.nil_append, List.cons_append] at h
        have hpd : p₀ = d := (List.cons_eq_cons.1 h).1
        have hd : d.isDigit = true := hds d (List.mem_cons_self d ds')
        rw [← hpd, hp] at hd
        simp at hd
    | u₀ :: u' =>
      simp only [List.cons_append] at h
      rcases List.cons_eq_cons.1 h with ⟨-, htail⟩
      exact ih u' pat v s (fun c hc => hds c (List.mem_cons_of_mem d hc)) hhead htail

lemma infix_of_cons_of_head_ne {pat : Str} {c : Char} {rest : Str} {h₀ : Char}
    (hinf : pat <:+: c :: rest) (hhead : pat.head? = some h₀) (hne : h₀ ≠ c) :
    pat <:+: rest := by
  obtain ⟨u, v, huv⟩ := hinf
  match u with
  | [] =>
    exfalso
    cases pat with
    | nil => simp at hhead
    | cons p₀ pt =>
      have hp : p₀ = h₀ := by simpa using hhead
      simp only [List.nil_append, List.cons_append] at huv
      exact hne (hp ▸ (List.cons_eq_cons.1 huv).1)
  | u₀ :: u' =>
    simp only [List.cons_append] at huv
    exact ⟨u', v, (List.cons_eq_cons.1 huv).2⟩

lemma citationPattern_head (ds : Str) : (citationPattern ds).head? = some '[' := rfl

lemma scanAux_complete :
    ∀ (s : Str) (st : Option Str),
      (∀ ds, st = some ds → ∀ c ∈ ds, c.isDigit = true) →
      ∀ n, specOccurs n (stateCarried st ++ s) → n ∈ scanAux st s := by
  intro s
  induction s with
  | nil =>
    intro st hst n hocc
    obtain ⟨mid, hmne, hmdig, hmn, hinf⟩ := hocc
    exfalso
    match st with
    | none =>
      simp only [stateCarried, List.append_nil] at hinf
      have := List.eq_nil_of_infix_nil hinf
      simp [citationPattern] at this
    | some ds =>
      simp only [stateCarried, List.append_nil] at hinf
      have hmem : (']' : Char) ∈ '[' :: ds := hinf.subset (by simp [citationPattern])
      rcases List.mem_cons.1 hmem with hmem | hmem
      · simp at hmem
      · have := hst ds rfl ']' hmem
        simp at this
  | cons c rest ih =>
    intro st hst n hocc
    match st with
    | none =>
      simp only [stateCarried, List.nil_append] at hocc
      obtain ⟨mid, hmne, hmdig, hmn, hinf⟩ := hocc
      rw [scanAux]
      by_cases hc : c = '['
      · rw [if_pos hc]
        refine ih (some []) (by intro ds hds; cases hds; intro x hx; simp at hx) n ?_
        refine ⟨mid, hmne, hmdig, hmn, ?_⟩
        simpa [stateCarried, hc] using hinf
      · rw [if_neg hc]
        refine ih none (by intro ds hds; cases hds) n ?_
        refine ⟨mid, hmne, hmdig, hmn, ?_⟩
        simp only [stateCarried, List.nil_append]
        exact infix_of_cons_of_head_ne hinf (citationPattern_head mid)
          (fun hh => hc hh.symm)
    | some ds =>
      have hdig := hst ds rfl
      simp only [stateCarried] at hocc
      obtain ⟨mid, hmne, hmdig, hmn, hinf⟩ := hocc
      obtain ⟨u, v, huv⟩ := hinf
      match u with
      | [] =>
        simp only [List.nil_append, citationPattern, List.cons_append] at huv
        have huv' := (List.cons_eq_cons.1 huv).2
        rw [List.append_assoc] at huv'
        simp only [List.singleton_append] at huv'
        obtain ⟨extra, hex1, hex2, hex3⟩ :=
          pattern_split_at_head ds mid (c :: rest) v hdig hmdig huv'
        rw [hex3, scanAux_emit v extra ds hex1 (by rw [← hex2]; exact hmne)]
        rw [← hex2, hmn]
        exact List.mem_cons_self _ _
      | u₀ :: u' =>
        simp only [List.cons_append] at huv
        have htail := (List.cons_eq_cons.1 huv).2
        have hpat : citationPattern mid <:+: c :: rest :=
          pattern_infix_right ds u' (citationPattern mid) v (c :: rest) hdig
            (citationPattern_head mid) htail
        rw [scanAux]
        by_cases hd : c.isDigit
        · rw [if_pos hd]
          refine ih (some (ds ++ [c])) (by
            intro ds' hds'; cases hds'
            intro x hx
            rcases List.mem_append.1 hx with hx | hx
            · exact hdig x hx
            · simp only [List.mem_singleton] at hx; exact hx ▸ hd) n ?_
          refine ⟨mid, hmne, hmdig, hmn, ?_⟩
          simp only [stateCarried]
          have heq : '[' :: (ds ++ [c]) ++ rest = ('[' :: ds) ++ (c :: rest) := by simp
          rw [heq]
          exact hpat.trans (suffix_infix_append _ _)
        · rw [if_neg hd]
          by_cases hbr : c = ']'
          · rw [if_pos hbr]
            have hpat' : citationPattern mid <:+: rest :=
              infix_of_cons_of_head_ne hpat (citationPattern_head mid)
                (by rw [hbr]; decide)
            have hmem : n ∈ scanAux none rest := by
              refine ih none (by intro ds' hds'; cases hds') n ?_
              exact ⟨mid, hmne, hmdig, hmn, by simpa [stateCarried] using hpat'⟩
            by_cases hds0 : ds = []
            · rw [if_pos hds0]; exact hmem
            · rw [if_neg hds0]; exact List.mem_cons_of_mem _ hmem
          · rw [if_neg hbr]
            by_cases hbr2 : c = '['
            · rw [if_pos hbr2]
              refine ih (some []) (by intro ds' hds'; cases hds'; intro x hx; simp at hx) n ?_
              refine ⟨mid, hmne, hmdig, hmn, ?_⟩
              simpa [stateCarried, hbr2] using hpat
            · rw [if_neg hbr2]
              refine ih none (by intro ds' hds'; cases hds') n ?_
              refine ⟨mid, hmne, hmdig, hmn, ?_⟩
              simp only [stateCarried, List.nil_append]
              exact infix_of_cons_of_head_ne hpat (citationPattern_head mid)
                (fun hh => hbr2 hh.symm)

lemma scan_complete (s : Str) (n : Nat) (h : specOccurs n s) : n ∈ scanCitations s := by
  refine scanAux_complete s none (by intro ds hds; cases hds) n ?_
  simpa [stateCarried] using h

lemma mem_scanCitations_iff (s : Str) (n : Nat) :
    n ∈ scanCitations s ↔ specOccurs n s :=
  ⟨scan_sound s n, scan_complete s n⟩

lemma mem_insertAsc (x n : Nat) : ∀ l : List Nat, x ∈ insertAsc n l ↔ x = n ∨ x ∈ l := by
  intro l
  induction l with
  | nil => simp [insertAsc]
  | cons m ms ih =>
    rw [insertAsc]
    by_cases h : n ≤ m
    · simp [h]
    · simp only [if_neg h, List.mem_cons, ih]
      tauto

lemma insertAsc_pairwise (n : Nat) :
    ∀ l : List Nat, l.Pairwise (· ≤ ·) → (insertAsc n l).Pairwise (· ≤ ·) := by
  intro l
  induction l with
  | nil => intro _; simp [insertAsc]
  | cons m ms ih =>
    intro h
    rcases List.pairwise_cons.1 h with ⟨hm, hms⟩
    rw [insertAsc]
    by_cases hle : n ≤ m
    · rw [if_pos hle]
      refine List.pairwise_cons.2 ⟨?_, h⟩
      intro z hz
      rcases List.mem_cons.1 hz with hz | hz
      · exact hz ▸ hle
      · exact le_trans hle (hm z hz)
    · rw [if_neg hle]
      refine List.pairwise_cons.2 ⟨?_, ih hms⟩
      intro z hz
      rcases (mem_insertAsc z n ms).1 hz with hz | hz
      · exact hz ▸ le_of_not_le hle
      · exact hm z hz

lemma sortAsc_pairwise (l : List Nat) : (sortAsc l).Pairwise (· ≤ ·) := by
  induction l with
  | nil => simp [sortAsc]
  | cons x xs ih => exact insertAsc_pairwise x (sortAsc xs) ih

lemma mem_sortAsc (x : Nat) (l : List Nat) : x ∈ sortAsc l ↔ x ∈ l := by
  induction l with
  | nil => simp [sortAsc]
  | cons y ys ih =>
    show x ∈ insertAsc y (sortAsc ys) ↔ _
    rw [mem_insertAsc, ih]
    simp

lemma insertAsc_nodup (n : Nat) :
    ∀ l : List Nat, l.Nodup → n ∉ l → (insertAsc n l).Nodup := by
  intro l
  induction l with
  | nil => intro _ _; simp [insertAsc]
  | cons m ms ih =>
    intro hnd hn
    rcases List.nodup_cons.1 hnd with ⟨hm, hms⟩
    simp only [List.mem_cons, not_or] at hn
    rw [insertAsc]
    by_cases hle : n ≤ m
    · rw [if_pos hle]
      exact List.nodup_cons.2 ⟨by simp [hn.1, hn.2, hm], hnd⟩
    · rw [if_neg hle]
      refine List.nodup_cons.2 ⟨?_, ih hms hn.2⟩
      intro hmem
      rcases (mem_insertAsc m n ms).1 hmem with hmem | hmem
      · exact hn.1 hmem.symm
      · exact hm hmem

lemma sortAsc_nodup (l : List Nat) (h : l.Nodup) : (sortAsc l).Nodup := by
  induction l with
  | nil => simp [sortAsc]
  | cons x xs ih =>
    rcases List.nodup_cons.1 h with ⟨hx, hxs⟩
    exact insertAsc_nodup x (sortAsc xs) (ih hxs) (fun hc => hx ((mem_sortAsc x xs).1 hc))

lemma sortAsc_sorted_lt (l : List Nat) (h : l.Nodup) :
    (sortAsc l).Pairwise (· < ·) := by
  have h1 := sortAsc_pairwise l
  have h2 : (sortAsc l).Pairwise (· ≠ ·) := sortAsc_nodup l h
  exact (h1.and h2).imp (fun hab => lt_of_le_of_ne hab.1 hab.2)

lemma doc_map_eq (chunks : List Chunk) :
    (build_context_by_document chunks).2 =
      ((List.range' 1 (dedupFirst (chunks.map (fun c => c.file_id))).length).zip
          (dedupFirst (chunks.map (fun c => c.file_id)))).map
        (fun p => (p.1, mkDocInfo p.2 (chunks.filter (fun c => c.file_id = p.2)))) := by
  simp only [build_context_by_document]
  rw [group_eq_spec chunks]
  unfold groupByFirstSeenSpec
  rw [List.length_map, List.zip_map_right, List.map_map]
  rfl

lemma context_eq (chunks : List Chunk) :
    (build_context_by_document chunks).1 =
      List.intercalate divider
        (((List.range' 1 (dedupFirst (chunks.map (fun c => c.file_id))).length).zip
            (dedupFirst (chunks.map (fun c => c.file_id)))).map
          (fun p => renderBlock p.1
            ((chunks.filter (fun c => c.file_id = p.2)).headI.file_name)
            (List.intercalate blankLine
              ((chunks.filter (fun c => c.file_id = p.2)).map (fun c => c.text))))) := by
  simp only [build_context_by_document]
  rw [group_eq_spec chunks]
  unfold groupByFirstSeenSpec
  rw [List.length_map, List.zip_map_right, List.map_map]
  rfl

lemma lookup_mem : ∀ (l : List (Nat × DocInfo)) (n : Nat) (d : DocInfo),
    l.lookup n = some d → (n, d) ∈ l := by
  intro l
  induction l with
  | nil => intro n d h; simp [List.lookup] at h
  | cons p rest ih =>
    intro n d h
    rw [List.lookup] at h
    by_cases hk : n = p.1
    · have hb : (n == p.1) = true := beq_iff_eq.2 hk
      rw [hb] at h
      have h2 : p.2 = d := Option.some.inj h
      exact List.mem_cons.2 (Or.inl (by rw [hk, ← h2]))
    · have hb : (n == p.1) = false := beq_eq_false_iff_ne.2 hk
      rw [hb] at h
      exact List.mem_cons_of_mem _ (ih n d h)

lemma zip_right_unique {β : Type} :
    ∀ (ns : List Nat) (ks : List β), ks.Nodup → ∀ (n₁ n₂ : Nat) (k : β),
      (n₁, k) ∈ ns.zip ks → (n₂, k) ∈ ns.zip ks → n₁ = n₂ := by
  intro ns
  induction ns with
  | nil => intro ks _ n₁ n₂ k h1 _; simp at h1
  | cons n ns' ih =>
    intro ks hnd n₁ n₂ k h1 h2
    match ks with
    | [] => simp at h1
    | k₀ :: ks' =>
      rcases List.nodup_cons.1 hnd with ⟨hk₀, hnd'⟩
      rw [List.zip_cons_cons] at h1 h2
      rcases List.mem_cons.1 h1 with h1 | h1 <;> rcases List.mem_cons.1 h2 with h2 | h2
      · injection h1 with e1 e2
        injection h2 with e3 e4
        rw [e1, e3]
      · exfalso
        injection h1 with e1 e2
        have hmem := (List.of_mem_zip h2).2
        rw [e2] at hmem
        exact hk₀ hmem
      · exfalso
        injection h2 with e3 e4
        have hmem := (List.of_mem_zip h1).2
        rw [e4] at hmem
        exact hk₀ hmem
      · exact ih ks' hnd' n₁ n₂ k h1 h2

lemma filterMap_lookup_eq (doc_map : List (Nat × DocInfo)) :
    ∀ l : List Nat,
      l.filterMap (fun n => (doc_map.lookup n).map mkCitation) =
        (l.filter (fun n => (doc_map.lookup n).isSome)).map (citationOf doc_map) := by
  intro l
  induction l with
  | nil => rfl
  | cons a l ih =>
    rw [List.filterMap_cons, List.filter_cons]
    cases h : doc_map.lookup a with
    | none => simp [h, ih]
    | some d =>
      have : citationOf doc_map a = mkCitation d := by
        unfold citationOf
        rw [h]
      simp [h, ih, this]

/-- C5: citation extraction and reconciliation return exactly one Citation
per distinct bracketed integer of the answer that is a key of the reference
map, in ascending order of reference number, de-duplicated; numbers not in
the map are silently dropped (total function, no error channel), and when
no marker resolves the result is the empty list.  The scanner is
characterised against the spec-side occurrence predicate `specOccurs`. -/
theorem reconcile_citations_spec (answer : Str) (doc_map : List (Nat × DocInfo)) :
    (∀ n : Nat, n ∈ scanCitations answer ↔ specOccurs n answer)
    ∧ reconcileCitations answer doc_map =
        ((citedSorted answer).filter (fun n => (doc_map.lookup n).isSome)).map
          (citationOf doc_map)
    ∧ ((citedSorted answer).filter
        (fun n => (doc_map.lookup n).isSome)).Pairwise (· < ·)
    ∧ (∀ n : Nat,
        n ∈ (citedSorted answer).filter (fun n => (doc_map.lookup n).isSome) ↔
          (specOccurs n answer ∧ (doc_map.lookup n).isSome = true))
    ∧ (reconcileCitations answer doc_map).length =
        ((citedSorted answer).filter (fun n => (doc_map.lookup n).isSome)).length
    ∧ ((∀ n, n ∈ scanCitations answer → doc_map.lookup n = none) →
        reconcileCitations answer doc_map = []) := by
  have hmem : ∀ n : Nat, n ∈ citedSorted answer ↔ n ∈ scanCitations answer := by
    intro n
    rw [citedSorted, mem_sortAsc, mem_dedupFirst]
  have heq := filterMap_lookup_eq doc_map (citedSorted answer)
  refine ⟨fun n => mem_scanCitations_iff answer n, heq, ?_, ?_, ?_, ?_⟩
  · exact (sortAsc_sorted_lt _ (dedupFirstAux_nodup _ [])).filter _
  · intro n
    rw [List.mem_filter, hmem, mem_scanCitations_iff]
  · show ((citedSorted answer).filterMap
        (fun n => (doc_map.lookup n).map mkCitation)).length = _
    rw [heq, List.length_map]
  · intro hall
    have hfil : (citedSorted answer).filter (fun n => (doc_map.lookup n).isSome) = [] := by
      rw [List.filter_eq_nil_iff]
      intro a ha
      rw [hall a ((hmem a).1 ha)]
      simp
    show ((citedSorted answer).filterMap
        (fun n => (doc_map.lookup n).map mkCitation)) = []
    rw [heq, hfil]
    rfl

/-- C5 witness: a marker that resolves nowhere yields the empty citation
list. -/
theorem reconcile_citations_spec_witness :
    reconcileCitations "[1]".data [] = [] :=
  (reconcile_citations_spec "[1]".data []).2.2.2.2.2 (fun _ _ => rfl)

/-- C6 counterexample: with a single candidate whose chunk text itself
contains the marker `[2]`, the reference number 2 appears (as a bracketed
integer) in the rendered context, but the reference map has no entry 2 —
so, read over all bracketed numbers of the context string, the claimed
guarantee fails. -/
theorem context_reference_number_counterexample :
    2 ∈ scanCitations (build_context_by_document [chBr]).1
    ∧ (build_context_by_document [chBr]).2.lookup 2 = none := by
  exact ⟨by decide, by decide⟩

/-- C6 (amended): the reference numbers the builder itself emits as block
labels are exactly the keys `1..N` of the reference map — the rendered
context is precisely the divider-joined blocks labelled by the map's
entries — and no `source_id` is assigned two different reference numbers.
Bracketed numbers occurring inside the chunk texts are outside the
guarantee. -/
theorem build_context_reference_map_consistent (chunks : List Chunk) :
    (build_context_by_document chunks).2.map Prod.fst =
      List.range' 1 (dedupFirst (chunks.map (fun c => c.file_id))).length
    ∧ (build_context_by_document chunks).1 =
      List.intercalate divider ((build_context_by_document chunks).2.map (fun p =>
        renderBlock p.1
          ((chunks.filter (fun c => c.file_id = p.2.file_id)).headI.file_name)
          (List.intercalate blankLine
            ((chunks.filter (fun c => c.file_id = p.2.file_id)).map (fun c => c.text)))))
    ∧ (∀ p ∈ (build_context_by_document chunks).2,
        ∀ q ∈ (build_context_by_document chunks).2,
          (p.2).file_id = (q.2).file_id → p.1 = q.1) := by
  refine ⟨?_, ?_, ?_⟩
  · rw [doc_map_eq, List.map_map]
    exact List.map_fst_zip _ _ (by rw [List.length_range'])
  · rw [context_eq, doc_map_eq, List.map_map]
    rfl
  · intro p hp q hq h
    rw [doc_map_eq] at hp hq
    obtain ⟨a, ha, rfl⟩ := List.mem_map.1 hp
    obtain ⟨b, hb, rfl⟩ := List.mem_map.1 hq
    have hab : a.2 = b.2 := h
    exact zip_right_unique _ _ (dedupFirst_nodup _) a.1 b.1 a.2
      (by simpa using ha) (by rw [hab]; simpa using hb)

/-- C6 witness: with one candidate the map keys are exactly `[1]`. -/
theorem build_context_reference_map_consistent_witness :
    (build_context_by_document [chA]).2.map Prod.fst =
      List.range' 1 (dedupFirst ([chA].map (fun c => c.file_id))).length :=
  (build_context_reference_map_consistent [chA]).1

/-- C3: retrieval against a nonexistent collection returns the empty
sequence (no error channel: `searchCollection` is total), retrieval against
an empty collection returns the empty sequence, and the orchestrator turns
an empty candidate list into the canned no-information answer with an empty
citation list, as a success value. -/
theorem empty_retrieval_is_soft (store : Str → Option (VectorIndex Chunk)) (k : ℚ)
    (co : Str → List Str → Nat → List (Nat × ℚ)) (gen : Str → Str)
    (folder_id question : Str) :
    (store folder_id = none → searchCollection store folder_id k 15 = [])
    ∧ (∀ idx : VectorIndex Chunk, idx.denseRank = [] → idx.sparseRank = [] →
        search_chunks idx k 15 = [])
    ∧ (searchCollection store folder_id k 15 = [] →
        ask_question store k co gen folder_id question =
          { answer := NO_INFO_ANSWER, citations := [] }) := by
  refine ⟨?_, ?_, ?_⟩
  · intro h
    rw [searchCollection, h]
  · intro idx h1 h2
    simp only [search_chunks, query_points, rrfFuse, h1, h2]
    rfl
  · intro h
    simp [ask_question, h]

/-- C3 witness: a store with no collections. -/
theorem empty_retrieval_is_soft_witness :
    searchCollection (fun _ => none) "F".data 60 15 = []
    ∧ ask_question (fun _ => none) 60 (fun _ _ _ => []) (fun _ => []) "F".data "q".data =
        { answer := NO_INFO_ANSWER, citations := [] } := by
  have h := empty_retrieval_is_soft (fun _ => none) 60 (fun _ _ _ => [])
    (fun _ => []) "F".data "q".data
  exact ⟨h.1 rfl, h.2.2 (h.1 rfl)⟩

/-- C10: every Citation in an `ask_question` response has `chunk_index = 0`
and a text of at most 200 characters that is the 200-character prefix of the
cited source's first surviving (post-rerank) chunk — regardless of which
chunk of that source was retrieved or cited. -/
theorem ask_citations_shape (store : Str → Option (VectorIndex Chunk)) (k : ℚ)
    (co : Str → List Str → Nat → List (Nat × ℚ)) (gen : Str → Str)
    (folder_id question : Str) (c : Citation)
    (hc : c ∈ (ask_question store k co gen folder_id question).citations) :
    c.chunk_index = 0
    ∧ c.text.length ≤ 200
    ∧ ((rerank_chunks co question (searchCollection store folder_id k 15) 10).1.filter
        (fun ch => ch.file_id = c.file_id)) ≠ []
    ∧ c.text = ((rerank_chunks co question
        (searchCollection store folder_id k 15) 10).1.filter
        (fun ch => ch.file_id = c.file_id)).headI.text.take 200
    ∧ c.text <+: ((rerank_chunks co question
        (searchCollection store folder_id k 15) 10).1.filter
        (fun ch => ch.file_id = c.file_id)).headI.text := by
  by_cases hinit : searchCollection store folder_id k 15 = []
  · exfalso
    rw [ask_question] at hc
    simp only [hinit, if_pos rfl] at hc
    simp at hc
  · rw [ask_question] at hc
    simp only [if_neg hinit] at hc
    set reranked := (rerank_chunks co question (searchCollection store folder_id k 15) 10).1
      with hreranked
    obtain ⟨n, hn, hmap⟩ := List.mem_filterMap.1 hc
    obtain ⟨d, hlk, hmk⟩ := Option.map_eq_some'.1 hmap
    have hdmem : (n, d) ∈ (build_context_by_document reranked).2 := lookup_mem _ n d hlk
    rw [doc_map_eq] at hdmem
    obtain ⟨a, ha, heq⟩ := List.mem_map.1 hdmem
    have hd : d = mkDocInfo a.2 (reranked.filter (fun ch => ch.file_id = a.2)) := by
      have := congrArg Prod.snd heq
      simpa using this.symm
    have hkey : a.2 ∈ dedupFirst (reranked.map (fun ch => ch.file_id)) :=
      (List.of_mem_zip ha).2
    have hkey' : a.2 ∈ reranked.map (fun ch => ch.file_id) :=
      (mem_dedupFirst _ _).1 hkey
    obtain ⟨ch, hch, hchid⟩ := List.mem_map.1 hkey'
    have hfilne : reranked.filter (fun x => x.file_id = a.2) ≠ [] := by
      refine List.ne_nil_of_mem (a := ch) ?_
      rw [List.mem_filter]
      exact ⟨hch, by simp [hchid]⟩
    have hcid : c.file_id = a.2 := by
      rw [← hmk, hd]
      rfl
    have hctext : c.text = (reranked.filter
        (fun x => x.file_id = a.2)).headI.text.take 200 := by
      rw [← hmk, hd]
      rfl
    rw [hcid]
    refine ⟨by rw [← hmk]; rfl, ?_, hfilne, hctext, ?_⟩
    · rw [hctext]
      exact List.length_take_le _ _
    · rw [hctext]
      exact List.take_prefix _ _

/-- C10 witness: a concrete pipeline run whose single citation has
`chunk_index = 0` and the 200-character prefix text. -/
theorem ask_citations_shape_witness :
    (Citation.mk "docA".data "A".data none 0 "Alpha text.".data).chunk_index = 0
    ∧ (Citation.mk "docA".data "A".data none 0 "Alpha text.".data).text.length ≤ 200
    ∧ ((rerank_chunks (fun _ _ _ => []) "q".data
        (searchCollection store1 "F".data 60 15) 10).1.filter
        (fun ch => ch.file_id =
          (Citation.mk "docA".data "A".data none 0 "Alpha text.".data).file_id)) ≠ []
    ∧ (Citation.mk "docA".data "A".data none 0 "Alpha text.".data).text =
      ((rerank_chunks (fun _ _ _ => []) "q".data
        (searchCollection store1 "F".data 60 15) 10).1.filter
        (fun ch => ch.file_id =
          (Citation.mk "docA".data "A".data none 0
            "Alpha text.".data).file_id)).headI.text.take 200
    ∧ (Citation.mk "docA".data "A".data none 0 "Alpha text.".data).text <+:
      ((rerank_chunks (fun _ _ _ => []) "q".data
        (searchCollection store1 "F".data 60 15) 10).1.filter
        (fun ch => ch.file_id =
          (Citation.mk "docA".data "A".data none 0
            "Alpha text.".data).file_id)).headI.text :=
  ask_citations_shape store1 60 (fun _ _ _ => []) (fun _ => "[1] yes".data)
    "F".data "q".data (Citation.mk "docA".data "A".data none 0 "Alpha text.".data)
    (by decide)
